import Mathlib

/-!
Verification of the price-analysis and alert-derivation core of the
crypto-pipeline repository, as a shallow embedding in Lean 4.

Source files embedded here:
 - `src/include/api_utils.py` : `validate_crypto_data`, `transform_crypto_data`,
   `analyze_for_alerts`;
 - `src/include/notification_utils.py` : the percentage-rendering branch of
   `format_crypto_summary` (lines 79-87);
 - `src/dashboard/utils/formatters.py` : `format_price`, `format_percentage`.

Modelling conventions.
 - Python numbers (floats) are modelled as exact rationals `ℚ`.  Python float
   formatting (`f"{x:.2f}"` and friends) rounds the binary double to the given
   number of decimal places with round-half-to-even; we model this as
   round-half-to-even on the exact rational value.
 - A Python dict record is modelled as a structure whose fields are `Option`
   valued where the corresponding key may be absent: `none` means the key is
   missing.  The field `current_price` of a raw record is `Option (Option ℚ)`:
   the outer layer is key presence, the inner layer distinguishes a JSON null
   (`none`) from a number.
 - `datetime.fromisoformat` is modelled on the subset of ISO 8601 actually
   exchanged by this pipeline: `YYYY-MM-DDTHH:MM:SS` with an optional
   `+HH:MM` / `-HH:MM` offset.  `str.replace("Z", "+00:00")` replaces every
   occurrence of `Z`, which `replaceAllZ` mirrors.
 - Fallible Python code (a raised exception) is modelled with `Option`.
-/

/-! ### Decimal rendering of numbers (Python float formatting model) -/

/-- Round a rational to the nearest integer, ties to even, as Python float
formatting does at the decimal level. -/
def roundHalfEven (q : ℚ) : ℤ :=
  let f : ℤ := ⌊q⌋
  let r : ℚ := q - f
  if r < 1/2 then f
  else if 1/2 < r then f + 1
  else if 2 ∣ f then f else f + 1

/-- Exactly `d` decimal digit characters of `n`, most significant first,
left-padded with zeros (the fractional part of a fixed-point rendering). -/
def padDigits : Nat → Nat → List Char
  | 0, _ => []
  | d+1, n => padDigits d (n / 10) ++ [Nat.digitChar (n % 10)]

/-- Fuel-driven rendering of a natural number in base 10. -/
def natStrAux : Nat → Nat → List Char
  | 0, _ => []
  | fuel+1, n =>
    if n < 10 then [Nat.digitChar n]
    else natStrAux fuel (n / 10) ++ [Nat.digitChar (n % 10)]

/-- Decimal digits of a natural number, most significant first. -/
def natStr (n : Nat) : List Char := natStrAux (n+1) n

/-- Insert a comma after every three characters, acting on a reversed digit
list (so commas land every three digits from the right). -/
def group3rev (l : List Char) : List Char :=
  if l.length ≤ 3 then l
  else l.take 3 ++ ',' :: group3rev (l.drop 3)
termination_by l.length
decreasing_by simp; omega

/-- Thousands grouping of a digit list, commas every three digits from the
right, mirroring the `,` option of Python format specs. -/
def groupDigits (l : List Char) : List Char := (group3rev l.reverse).reverse

/-- Fixed-point decimal rendering of a rational with `d` decimal places,
mirroring Python `f"{x:.df}"` (and `f"{x:,.df}"` when `grouped` is true). -/
def fmtFixed (grouped : Bool) (d : Nat) (x : ℚ) : String :=
  let n : Nat := (roundHalfEven (|x| * (10:ℚ)^d)).toNat
  let ip := n / 10^d
  let ipStr := if grouped then groupDigits (natStr ip) else natStr ip
  String.mk ((if x < 0 then ['-'] else []) ++ ipStr ++ '.' :: padDigits d (n % 10^d))

/-! ### `src/dashboard/utils/formatters.py` -/

/-- Embedding of `formatters.format_price` (lines 6-21). -/
def format_price (price : ℚ) : String :=
  if 1000 ≤ price then "$" ++ fmtFixed true 2 price
  else if 1 ≤ price then "$" ++ fmtFixed false 4 price
  else "$" ++ fmtFixed false 8 price

/-- Embedding of `formatters.format_percentage` (lines 45-62). -/
def format_percentage (pct : ℚ) (include_sign : Bool) : String :=
  if include_sign then
    if 0 < pct then "+" ++ fmtFixed false 2 pct ++ "%"
    else fmtFixed false 2 pct ++ "%"
  else fmtFixed false 2 pct ++ "%"

/-! ### `src/include/notification_utils.py` -/

/-- Embedding of the `change_text` computation inside
`notification_utils.format_crypto_summary` (lines 79-87): the only place the
message composer renders a percentage. -/
def changeText (change_pct : ℚ) : String :=
  if 0 < change_pct then "+" ++ fmtFixed false 2 change_pct ++ "%"
  else if change_pct < 0 then fmtFixed false 2 change_pct ++ "%"
  else "0.00%"

/-! ### Timestamps: model of `datetime.fromisoformat` -/

/-- A Python `datetime` value: calendar fields, microseconds, and an optional
UTC offset in seconds (`none` models a naive datetime, `some 0` models UTC). -/
structure PyDatetime where
  year : Nat
  month : Nat
  day : Nat
  hour : Nat
  minute : Nat
  second : Nat
  microsecond : Nat
  utcoffset : Option Int
deriving DecidableEq, Repr

/-- Numeric value of a decimal digit character. -/
def dval (c : Char) : Nat := c.toNat - 48

/-- Value of a two-digit decimal string. -/
def d2 (a b : Char) : Nat := 10 * dval a + dval b

/-- Value of a four-digit decimal string. -/
def d4 (a b c e : Char) : Nat := 1000 * dval a + 100 * dval b + 10 * dval c + dval e

/-- Gregorian leap-year rule, as `datetime` validates dates. -/
def isLeap (y : Nat) : Bool := (y % 4 = 0 && y % 100 ≠ 0) || y % 400 = 0

/-- Days in a month, as `datetime` validates dates. -/
def daysInMonth (y m : Nat) : Nat :=
  if m = 2 then (if isLeap y then 29 else 28)
  else if m = 4 ∨ m = 6 ∨ m = 9 ∨ m = 11 then 30
  else 31

/-- Parse a calendar date `YYYY-MM-DD`. -/
def parseDate (l : List Char) : Option (Nat × Nat × Nat) :=
  match l with
  | [y1, y2, y3, y4, c1, mo1, mo2, c2, dd1, dd2] =>
    if c1 = '-' ∧ c2 = '-' ∧
        y1.isDigit ∧ y2.isDigit ∧ y3.isDigit ∧ y4.isDigit ∧
        mo1.isDigit ∧ mo2.isDigit ∧ dd1.isDigit ∧ dd2.isDigit then
      let y := d4 y1 y2 y3 y4
      let mo := d2 mo1 mo2
      let dd := d2 dd1 dd2
      if 1 ≤ y ∧ 1 ≤ mo ∧ mo ≤ 12 ∧ 1 ≤ dd ∧ dd ≤ daysInMonth y mo then
        some (y, mo, dd)
      else none
    else none
  | _ => none

/-- Parse hours and minutes `HH:MM`. -/
def parseHM (l : List Char) : Option (Nat × Nat) :=
  match l with
  | [h1, h2, c, m1, m2] =>
    if c = ':' ∧ h1.isDigit ∧ h2.isDigit ∧ m1.isDigit ∧ m2.isDigit then
      let hh := d2 h1 h2
      let mi := d2 m1 m2
      if hh ≤ 23 ∧ mi ≤ 59 then some (hh, mi) else none
    else none
  | _ => none

/-- Parse a two-digit seconds field `SS`. -/
def parseSS (l : List Char) : Option Nat :=
  match l with
  | [s1, s2] =>
    if s1.isDigit ∧ s2.isDigit then
      let ss := d2 s1 s2
      if ss ≤ 59 then some ss else none
    else none
  | _ => none

/-- Microseconds denoted by a run of 1 to 6 fractional-second digits. -/
def fracVal (ds : List Char) : Nat :=
  (ds.foldl (fun a c => 10 * a + dval c) 0) * 10 ^ (6 - ds.length)

/-- Parse an optional UTC offset: nothing (a naive datetime), `±HH:MM`, or
`±HH:MM:SS`, giving the offset in seconds. -/
def parseOffE (l : List Char) : Option (Option Int) :=
  match l with
  | [] => some none
  | [sg, h1, h2, c, m1, m2] =>
    if (sg = '+' ∨ sg = '-') ∧ c = ':' ∧
        h1.isDigit ∧ h2.isDigit ∧ m1.isDigit ∧ m2.isDigit then
      let hh := d2 h1 h2
      let mm := d2 m1 m2
      if hh ≤ 23 ∧ mm ≤ 59 then
        some (some (if sg = '-' then -(3600 * hh + 60 * mm : Int)
          else (3600 * hh + 60 * mm : Int)))
      else none
    else none
  | [sg, h1, h2, c1, m1, m2, c2, s1, s2] =>
    if (sg = '+' ∨ sg = '-') ∧ c1 = ':' ∧ c2 = ':' ∧
        h1.isDigit ∧ h2.isDigit ∧ m1.isDigit ∧ m2.isDigit ∧ s1.isDigit ∧ s2.isDigit then
      let hh := d2 h1 h2
      let mm := d2 m1 m2
      let ss := d2 s1 s2
      if hh ≤ 23 ∧ mm ≤ 59 ∧ ss ≤ 59 then
        some (some (if sg = '-' then -(3600 * hh + 60 * mm + ss : Int)
          else (3600 * hh + 60 * mm + ss : Int)))
      else none
    else none
  | _ => none

/-- Parse what follows `HH:MM`: an optional `:SS`, an optional fraction of
1 to 6 digits, and an optional offset.  Gives seconds, microseconds and the
offset. -/
def parseTimeTail (l : List Char) : Option (Nat × Nat × Option Int) :=
  match l with
  | ':' :: rest =>
    match parseSS (rest.take 2) with
    | none => none
    | some ss =>
      match rest.drop 2 with
      | '.' :: fr =>
        let ds := fr.takeWhile (fun c => c.isDigit)
        if 1 ≤ ds.length ∧ ds.length ≤ 6 then
          match parseOffE (fr.drop ds.length) with
          | some off => some (ss, fracVal ds, off)
          | none => none
        else none
      | rest2 =>
        match parseOffE rest2 with
        | some off => some (ss, 0, off)
        | none => none
  | _ =>
    match parseOffE l with
    | some off => some (0, 0, off)
    | none => none

/-- Model of `datetime.fromisoformat` on the subset of ISO 8601 this pipeline
exchanges: `YYYY-MM-DD`, optionally followed by `T` and `HH:MM`, an optional
`:SS`, an optional fraction `.f` of 1 to 6 digits, and an optional UTC offset
`±HH:MM` or `±HH:MM:SS`.  Not modelled: hour-only times, separators other
than `T`, fractional offsets, and the bare `Z` designator of newer Python
versions (the code substitutes `Z` away before ever calling the parser). -/
def fromisoformat (l : List Char) : Option PyDatetime :=
  match parseDate (l.take 10) with
  | none => none
  | some (y, mo, dd) =>
    match l.drop 10 with
    | [] => some ⟨y, mo, dd, 0, 0, 0, 0, none⟩
    | 'T' :: rest =>
      match parseHM (rest.take 5) with
      | none => none
      | some (hh, mi) =>
        match parseTimeTail (rest.drop 5) with
        | none => none
        | some (ss, us, off) => some ⟨y, mo, dd, hh, mi, ss, us, off⟩
    | _ => none

/-- The replacement text `+00:00`. -/
def replZ : List Char := ['+', '0', '0', ':', '0', '0']

/-- Replace every occurrence of `Z` by `+00:00`, mirroring the Python
expression `s.replace("Z", "+00:00")` (which replaces all occurrences). -/
def replaceAllZ : List Char → List Char
  | [] => []
  | c :: cs => (if c = 'Z' then replZ else [c]) ++ replaceAllZ cs

/-- Replace one trailing `Z` by `+00:00`, the substitution described by the
specification (a trailing literal Z is treated as UTC offset +00:00). -/
def replaceTrailingZ (l : List Char) : List Char :=
  if l.getLast? = some 'Z' then l.dropLast ++ replZ else l

/-- Embedding of the timestamp parse in `transform_crypto_data` (lines
138-140): `datetime.fromisoformat(item["last_updated"].replace("Z", "+00:00"))`. -/
def parse_last_updated (s : String) : Option PyDatetime :=
  fromisoformat (replaceAllZ s.data)

/-! ### Records -/

/-- A raw record from the fetch step, as a Python dict.  `none` in an outer
`Option` means the key is absent; for `current_price` the inner `Option`
distinguishes a JSON null from a number. -/
structure RawRecord where
  id : Option String
  symbol : Option String
  current_price : Option (Option ℚ)
  market_cap : Option ℚ
  total_volume : Option ℚ
  price_change_24h : Option ℚ
  price_change_percentage_24h : Option ℚ
  last_updated : Option String
deriving DecidableEq, Repr

/-- A normalized record, as produced by `transform_crypto_data`.  The price is
copied verbatim (a JSON null passes through), optional numeric fields have
been defaulted to 0, and the timestamp is parsed. -/
structure NormalizedRecord where
  id : String
  symbol : String
  current_price : Option ℚ
  market_cap : ℚ
  total_volume : ℚ
  price_change_24h : ℚ
  price_change_percentage_24h : ℚ
  last_updated : PyDatetime
deriving DecidableEq, Repr

/-! ### `api_utils.validate_crypto_data` (lines 73-108) -/

/-- Embedding of `validate_crypto_data`: false on an empty batch; every record
must carry the keys `id`, `symbol`, `current_price`, `last_updated` and a
price that is neither null nor ≤ 0. -/
def validate_crypto_data (data : List RawRecord) : Bool :=
  if data.isEmpty then false
  else data.all fun item =>
    (item.id.isSome && item.symbol.isSome && item.current_price.isSome &&
      item.last_updated.isSome) &&
    match item.current_price with
    | some (some p) => decide (0 < p)
    | _ => false

/-! ### `api_utils.transform_crypto_data` (lines 111-145) -/

/-- Embedding of the loop body of `transform_crypto_data` for one record.
A missing required key (a Python `KeyError`) or a failing timestamp parse
(a `ValueError`) is `none`. -/
def transformRecord (r : RawRecord) : Option NormalizedRecord :=
  match r.id, r.symbol, r.current_price, r.last_updated with
  | some i, some sym, some cp, some lu =>
    match parse_last_updated lu with
    | some ts => some
        { id := i
          symbol := sym
          current_price := cp
          market_cap := r.market_cap.getD 0
          total_volume := r.total_volume.getD 0
          price_change_24h := r.price_change_24h.getD 0
          price_change_percentage_24h := r.price_change_percentage_24h.getD 0
          last_updated := ts }
    | none => none
  | _, _, _, _ => none

/-- Embedding of `transform_crypto_data`: transform each record in order; the
first failure aborts the whole batch (the Python loop raises). -/
def transform_crypto_data : List RawRecord → Option (List NormalizedRecord)
  | [] => some []
  | r :: rs =>
    match transformRecord r, transform_crypto_data rs with
    | some n, some ns => some (n :: ns)
    | _, _ => none

/-! ### `api_utils.analyze_for_alerts` (lines 148-190) -/

/-- The shape of a record as read by `analyze_for_alerts`: it reads the keys
`id`, `symbol`, `current_price` directly and `price_change_percentage_24h`
through `item.get(..., 0)`, so only the latter may be absent (`none`). -/
structure AnalyzeRecord where
  id : String
  symbol : String
  current_price : Option ℚ
  price_change_percentage_24h : Option ℚ
deriving DecidableEq, Repr

/-- View of a normalized record as an analyzer input (all keys present). -/
def NormalizedRecord.toAnalyzeRecord (n : NormalizedRecord) : AnalyzeRecord :=
  { id := n.id
    symbol := n.symbol
    current_price := n.current_price
    price_change_percentage_24h := some n.price_change_percentage_24h }

/-- One alert entry, as the dict built at lines 169-175. -/
structure AlertEntry where
  coin_id : String
  symbol : String
  price : Option ℚ
  change_pct : ℚ
  direction : String
deriving DecidableEq, Repr

/-- The alert report dict built at lines 186-190. -/
structure AlertReport where
  has_alert : Bool
  alerts : List AlertEntry
  threshold : ℚ
deriving DecidableEq, Repr

/-- Model of Python `str.upper()`: uppercase each character. -/
def strUpper (s : String) : String := String.mk (s.data.map Char.toUpper)

/-- `item.get("price_change_percentage_24h", 0)` (line 166). -/
def changePct (item : AnalyzeRecord) : ℚ :=
  item.price_change_percentage_24h.getD 0

/-- The alert-entry dict for one qualifying record (lines 169-175). -/
def mkAlertEntry (item : AnalyzeRecord) : AlertEntry :=
  { coin_id := item.id
    symbol := strUpper item.symbol
    price := item.current_price
    change_pct := changePct item
    direction := if 0 < changePct item then "📈" else "📉" }

/-- The sort key comparison of line 182: descending absolute change
(`sort(key=lambda x: abs(x["change_pct"]), reverse=True)`, a stable sort). -/
def alertLE (a b : AlertEntry) : Bool := |b.change_pct| ≤ |a.change_pct|

/-- Embedding of `analyze_for_alerts`: collect the qualifying entries in batch
order, return `none` if there are none, otherwise sort them stably by
descending absolute change and wrap them in a report. -/
def analyze_for_alerts (data : List AnalyzeRecord) (threshold : ℚ) : Option AlertReport :=
  let alerts := (data.filter fun item => decide (threshold ≤ |changePct item|)).map mkAlertEntry
  if alerts.isEmpty then none
  else some { has_alert := true, alerts := alerts.mergeSort alertLE, threshold := threshold }

/-! ### Observations on rendered strings -/

/-- Number of decimal digits rendered after the last `.` of a string (the
digit run following the final dot, ignoring a trailing non-digit such as
`%`). -/
def fracDigits (s : String) : Nat :=
  ((s.data.reverse.takeWhile (fun c => c != '.')).reverse.takeWhile (fun c => c.isDigit)).length

/-! ### Mutating a raw record (for the validator contract) -/

/-- The four required keys of a raw record. -/
inductive ReqField where
  | id
  | symbol
  | current_price
  | last_updated
deriving DecidableEq, Repr

/-- Remove one required key from a raw record (`del item[key]`). -/
def removeField (f : ReqField) (r : RawRecord) : RawRecord :=
  match f with
  | .id => { r with id := none }
  | .symbol => { r with symbol := none }
  | .current_price => { r with current_price := none }
  | .last_updated => { r with last_updated := none }

/-- Overwrite the price of a raw record with a number. -/
def setPrice (v : ℚ) (r : RawRecord) : RawRecord :=
  { r with current_price := some (some v) }

/-! ### A heap model of `analyze_for_alerts` (for the no-mutation contract)

Python dicts are mutable heap objects.  To state that `analyze_for_alerts`
does not mutate its input we re-embed it against an explicit object store:
addresses are indices into a list of objects, the input batch is a list of
addresses, and every write to the store is explicit.  The only writes the
source performs are allocations of fresh alert-entry dicts (lines 169-175);
`alerts.sort()` (line 182) reorders the local list of fresh entries and reads
the store without writing it. -/

/-- A heap object: an input record dict or an alert-entry dict. -/
inductive HeapObj where
  | recObj : AnalyzeRecord → HeapObj
  | entryObj : AlertEntry → HeapObj
deriving DecidableEq, Repr

/-- Read a record dict at an address (`none` models a Python error). -/
def readRec (heap : List HeapObj) (a : Nat) : Option AnalyzeRecord :=
  match heap.get? a with
  | some (.recObj r) => some r
  | _ => none

/-- The sort key `abs(x["change_pct"])` read through the store. -/
def entryKey (heap : List HeapObj) (a : Nat) : ℚ :=
  match heap.get? a with
  | some (.entryObj e) => |e.change_pct|
  | _ => 0

/-- The scan loop of `analyze_for_alerts` (lines 165-175) against the store:
read each input record, allocate a fresh entry dict for each qualifying one.
The first component is the list of allocated addresses (`none` models an
escaping exception); the second is the store after the call. -/
def analyzeLoopS : List HeapObj → List Nat → ℚ → Option (List Nat) × List HeapObj
  | heap, [], _ => (some [], heap)
  | heap, a :: rest, t =>
    match readRec heap a with
    | none => (none, heap)
    | some item =>
      if decide (t ≤ |changePct item|) then
        let out := analyzeLoopS (heap ++ [HeapObj.entryObj (mkAlertEntry item)]) rest t
        ((out.1.map fun l => heap.length :: l), out.2)
      else analyzeLoopS heap rest t

/-- Store-passing embedding of `analyze_for_alerts` (lines 148-190): scan,
then either return no report or sort the fresh entry addresses by descending
absolute change read through the store. -/
def analyze_for_alertsS (heap : List HeapObj) (batch : List Nat) (t : ℚ) :
    Option (Option (List Nat × ℚ)) × List HeapObj :=
  match analyzeLoopS heap batch t with
  | (none, heap') => (none, heap')
  | (some alerts, heap') =>
    if alerts.isEmpty then (some none, heap')
    else
      (some (some (alerts.mergeSort (fun a b => decide (entryKey heap' b ≤ entryKey heap' a)), t)),
        heap')

/-! ### Named example records used in concrete instances -/

/-- A well-formed raw record (all keys present, optional numerics absent). -/
def rawBitcoin : RawRecord :=
  { id := some "bitcoin"
    symbol := some "btc"
    current_price := some (some 100)
    market_cap := none
    total_volume := none
    price_change_24h := none
    price_change_percentage_24h := none
    last_updated := some "2024-12-01T00:00:00Z" }

/-- Analyzer input with a 6.0 percent change. -/
def recUp6 : AnalyzeRecord := ⟨"a", "aaa", some 10, some 6⟩

/-- Analyzer input with a -12.0 percent change. -/
def recDown12 : AnalyzeRecord := ⟨"b", "bbb", some 20, some (-12)⟩

/-- Analyzer input with a 1.0 percent change. -/
def recUp1 : AnalyzeRecord := ⟨"c", "ccc", some 30, some 1⟩

/-- Analyzer input whose `price_change_percentage_24h` key is absent. -/
def recNoPct : AnalyzeRecord := ⟨"m", "mmm", some 40, none⟩

/-- The normalized record that `transform_crypto_data` produces from
`rawBitcoin`. -/
def normBitcoin : NormalizedRecord :=
  { id := "bitcoin"
    symbol := "btc"
    current_price := some 100
    market_cap := 0
    total_volume := 0
    price_change_24h := 0
    price_change_percentage_24h := 0
    last_updated := ⟨2024, 12, 1, 0, 0, 0, 0, some 0⟩ }

/-! ## Helper lemmas: decimal rendering -/

lemma digitChar_facts {m : Nat} (h : m < 10) :
    (Nat.digitChar m).isDigit = true ∧ Nat.digitChar m ≠ '.' ∧ Nat.digitChar m ≠ ',' := by
  interval_cases m <;> exact ⟨by decide, by decide, by decide⟩

lemma padDigits_length (d n : Nat) : (padDigits d n).length = d := by
  induction d generalizing n with
  | zero => rfl
  | succ d ih => simp [padDigits, ih]

lemma padDigits_mem {d n : Nat} {c : Char} (hc : c ∈ padDigits d n) :
    ∃ m, m < 10 ∧ c = Nat.digitChar m := by
  induction d generalizing n with
  | zero => simp [padDigits] at hc
  | succ d ih =>
    simp only [padDigits, List.mem_append, List.mem_singleton] at hc
    rcases hc with hc | rfl
    · exact ih hc
    · exact ⟨n % 10, Nat.mod_lt _ (by norm_num), rfl⟩

lemma natStrAux_mem {fuel n : Nat} {c : Char} (hc : c ∈ natStrAux fuel n) :
    ∃ m, m < 10 ∧ c = Nat.digitChar m := by
  induction fuel generalizing n with
  | zero => simp [natStrAux] at hc
  | succ fuel ih =>
    simp only [natStrAux] at hc
    split at hc
    · simp only [List.mem_singleton] at hc
      subst hc
      exact ⟨n, by omega, rfl⟩
    · simp only [List.mem_append, List.mem_singleton] at hc
      rcases hc with hc | rfl
      · exact ih hc
      · exact ⟨n % 10, Nat.mod_lt _ (by norm_num), rfl⟩

lemma natStr_mem {n : Nat} {c : Char} (hc : c ∈ natStr n) :
    ∃ m, m < 10 ∧ c = Nat.digitChar m := natStrAux_mem hc

lemma takeWhile_all {α : Type} {p : α → Bool} :
    ∀ l : List α, (∀ a ∈ l, p a = true) → l.takeWhile p = l := by
  intro l hl
  induction l with
  | nil => rfl
  | cons a l ih =>
    rw [List.takeWhile_cons, if_pos (hl a (by simp))]
    rw [ih fun b hb => hl b (by simp [hb])]

lemma takeWhile_all_append {α : Type} {p : α → Bool} (l : List α) (x : α) (r : List α)
    (hl : ∀ a ∈ l, p a = true) (hx : p x = false) :
    (l ++ x :: r).takeWhile p = l := by
  induction l with
  | nil => simp [List.takeWhile_cons, hx]
  | cons a l ih =>
    rw [List.cons_append, List.takeWhile_cons, if_pos (hl a (by simp))]
    rw [ih fun b hb => hl b (by simp [hb])]

lemma fracDigits_spec (pre pd suf : List Char)
    (hpd : ∀ c ∈ pd, c.isDigit = true ∧ c ≠ '.')
    (hsuf : ∀ c ∈ suf, c.isDigit = false ∧ c ≠ '.') :
    fracDigits (String.mk (pre ++ '.' :: (pd ++ suf))) = pd.length := by
  unfold fracDigits
  have h1 : (pre ++ '.' :: (pd ++ suf)).reverse
      = (suf.reverse ++ pd.reverse) ++ '.' :: pre.reverse := by
    simp [List.reverse_append, List.reverse_cons]
  rw [show (String.mk (pre ++ '.' :: (pd ++ suf))).data = pre ++ '.' :: (pd ++ suf) from rfl, h1]
  rw [takeWhile_all_append (p := fun c => c != '.') (suf.reverse ++ pd.reverse) '.' pre.reverse
    (by
      intro a ha
      simp only [List.mem_append, List.mem_reverse] at ha
      rcases ha with ha | ha
      · simpa using (hsuf a ha).2
      · simpa using (hpd a ha).2)
    (by decide)]
  rw [List.reverse_append, List.reverse_reverse, List.reverse_reverse]
  cases suf with
  | nil =>
    rw [List.append_nil, takeWhile_all pd fun c hc => (hpd c hc).1]
  | cons s ss =>
    rw [takeWhile_all_append pd s ss (fun c hc => (hpd c hc).1) (hsuf s (by simp)).1]

lemma padDigits_good {d n : Nat} : ∀ c ∈ padDigits d n, c.isDigit = true ∧ c ≠ '.' := by
  intro c hc
  obtain ⟨m, hm, rfl⟩ := padDigits_mem hc
  exact ⟨(digitChar_facts hm).1, (digitChar_facts hm).2.1⟩

lemma strApp (a b : List Char) : String.mk a ++ String.mk b = String.mk (a ++ b) := rfl

lemma fracDigits_mk_eq (pre pd : List Char) (hpd : ∀ c ∈ pd, c.isDigit = true ∧ c ≠ '.') :
    fracDigits (String.mk (pre ++ '.' :: pd)) = pd.length := by
  have h := fracDigits_spec pre pd [] hpd (by simp)
  simpa using h

lemma fracDigits_dollar_fmtFixed (g : Bool) (d : Nat) (x : ℚ) :
    fracDigits ("$" ++ fmtFixed g d x) = d := by
  unfold fmtFixed
  rw [show ("$" : String) = String.mk ['$'] from rfl, strApp]
  rw [show (['$'] ++ ((if x < 0 then ['-'] else []) ++
        (if g then groupDigits (natStr ((roundHalfEven (|x| * (10:ℚ)^d)).toNat / 10^d))
          else natStr ((roundHalfEven (|x| * (10:ℚ)^d)).toNat / 10^d)) ++
        '.' :: padDigits d ((roundHalfEven (|x| * (10:ℚ)^d)).toNat % 10^d)))
      = (('$' :: ((if x < 0 then ['-'] else []) ++
        (if g then groupDigits (natStr ((roundHalfEven (|x| * (10:ℚ)^d)).toNat / 10^d))
          else natStr ((roundHalfEven (|x| * (10:ℚ)^d)).toNat / 10^d)))) ++
        '.' :: padDigits d ((roundHalfEven (|x| * (10:ℚ)^d)).toNat % 10^d)) from by simp]
  rw [fracDigits_mk_eq _ _ padDigits_good]
  exact padDigits_length _ _

lemma roundHalfEven_ge_floor (q : ℚ) : ⌊q⌋ ≤ roundHalfEven q := by
  unfold roundHalfEven
  dsimp only
  split
  · exact le_refl _
  · split
    · omega
    · split
      · exact le_refl _
      · omega

lemma natStrAux_len : ∀ fuel k n : Nat, 10^k ≤ n → n < 10^fuel → k + 1 ≤ (natStrAux fuel n).length := by
  intro fuel
  induction fuel with
  | zero =>
    intro k n h1 h2
    have := Nat.pow_pos (n := k) (by norm_num : 0 < 10)
    simp at h2
    omega
  | succ fuel ih =>
    intro k n h1 h2
    simp only [natStrAux]
    split
    · rename_i hn
      simp only [List.length_singleton]
      rcases Nat.eq_zero_or_pos k with rfl | hk
      · omega
      · have : 10^1 ≤ 10^k := Nat.pow_le_pow_right (by norm_num) hk
        simp at this
        omega
    · rename_i hn
      rw [List.length_append, List.length_singleton]
      rcases Nat.eq_zero_or_pos k with rfl | hk
      · omega
      · obtain ⟨k', rfl⟩ := Nat.exists_eq_add_of_le hk
        have hdiv1 : 10^k' ≤ n / 10 := by
          rw [Nat.le_div_iff_mul_le (by norm_num)]
          calc 10^k' * 10 = 10^(k'+1) := by ring
          _ = 10^(1+k') := by ring_nf
          _ ≤ n := h1
        have hdiv2 : n / 10 < 10^fuel := by
          rw [Nat.div_lt_iff_lt_mul (by norm_num)]
          calc n < 10^(fuel+1) := h2
          _ = 10^fuel * 10 := by ring
        have := ih k' (n / 10) hdiv1 hdiv2
        omega

lemma natStr_len_ge {n : Nat} (h : 1000 ≤ n) : 4 ≤ (natStr n).length := by
  have h2 : n < 10^(n+1) := by
    calc n < 10^n := Nat.lt_pow_self (by norm_num) n
    _ ≤ 10^(n+1) := Nat.pow_le_pow_right (by norm_num) (by omega)
  exact natStrAux_len (n+1) 3 n (by simpa using h) h2

lemma natStr_no_comma {n : Nat} : ',' ∉ natStr n := by
  intro hc
  obtain ⟨m, hm, he⟩ := natStr_mem hc
  exact (digitChar_facts hm).2.2 he.symm

lemma padDigits_no_comma {d n : Nat} : ',' ∉ padDigits d n := by
  intro hc
  obtain ⟨m, hm, he⟩ := padDigits_mem hc
  exact (digitChar_facts hm).2.2 he.symm

lemma group3rev_comma {l : List Char} (h : 3 < l.length) : ',' ∈ group3rev l := by
  rw [group3rev, if_neg (by omega)]
  simp

lemma ip_ge (x : ℚ) (hx : (1000:ℚ) ≤ x) :
    1000 ≤ (roundHalfEven (|x| * (10:ℚ)^2)).toNat / 10^2 := by
  have h0 : (0:ℚ) ≤ x := le_trans (by norm_num) hx
  have habs : |x| = x := abs_of_nonneg h0
  have h1 : (100000:ℚ) ≤ |x| * (10:ℚ)^2 := by rw [habs]; nlinarith
  have h2 : (100000:ℤ) ≤ ⌊|x| * (10:ℚ)^2⌋ := Int.le_floor.mpr (by exact_mod_cast h1)
  have h3 : (100000:ℤ) ≤ roundHalfEven (|x| * (10:ℚ)^2) :=
    le_trans h2 (roundHalfEven_ge_floor _)
  have h4 : (100000:ℕ) ≤ (roundHalfEven (|x| * (10:ℚ)^2)).toNat := by omega
  have h5 : (1000:ℕ) ≤ (roundHalfEven (|x| * (10:ℚ)^2)).toNat / 100 := by
    rw [Nat.le_div_iff_mul_le (by norm_num)]
    omega
  simpa using h5

lemma comma_mem_fmtFixed_grouped {d : Nat} {x : ℚ}
    (h : 1000 ≤ (roundHalfEven (|x| * (10:ℚ)^d)).toNat / 10^d) :
    ',' ∈ (fmtFixed true d x).data := by
  unfold fmtFixed
  dsimp only
  rw [if_pos rfl]
  have h4 : 4 ≤ (natStr ((roundHalfEven (|x| * (10:ℚ)^d)).toNat / 10^d)).length := natStr_len_ge h
  have hmem : ',' ∈ groupDigits (natStr ((roundHalfEven (|x| * (10:ℚ)^d)).toNat / 10^d)) := by
    unfold groupDigits
    rw [List.mem_reverse]
    exact group3rev_comma (by simpa using h4)
  simp [hmem]

lemma comma_not_mem_fmtFixed {d : Nat} {x : ℚ} : ',' ∉ (fmtFixed false d x).data := by
  unfold fmtFixed
  dsimp only
  intro hc
  simp only [List.mem_append, List.mem_cons] at hc
  rcases hc with (hc | hc) | hc | hc
  · split at hc <;> simp_all
  · exact natStr_no_comma hc
  · exact absurd hc (by decide)
  · exact padDigits_no_comma hc

lemma data_append (a b : String) : (a ++ b).data = a.data ++ b.data := rfl

lemma fracDigits_fmtFixed_pct (sgn : List Char) (g : Bool) (d : Nat) (x : ℚ) :
    fracDigits (String.mk sgn ++ fmtFixed g d x ++ "%") = d := by
  unfold fmtFixed
  dsimp only
  rw [show ("%" : String) = String.mk ['%'] from rfl, strApp, strApp]
  rw [show ((sgn ++ ((if x < 0 then ['-'] else []) ++
        (if g then groupDigits (natStr ((roundHalfEven (|x| * (10:ℚ)^d)).toNat / 10^d))
          else natStr ((roundHalfEven (|x| * (10:ℚ)^d)).toNat / 10^d)) ++
        '.' :: padDigits d ((roundHalfEven (|x| * (10:ℚ)^d)).toNat % 10^d))) ++ ['%'])
      = ((sgn ++ ((if x < 0 then ['-'] else []) ++
        (if g then groupDigits (natStr ((roundHalfEven (|x| * (10:ℚ)^d)).toNat / 10^d))
          else natStr ((roundHalfEven (|x| * (10:ℚ)^d)).toNat / 10^d)))) ++
        '.' :: (padDigits d ((roundHalfEven (|x| * (10:ℚ)^d)).toNat % 10^d) ++ ['%'])) from by
    simp]
  rw [fracDigits_spec _ _ _ padDigits_good (by intro c hc; simp at hc; subst hc; exact ⟨by decide, by decide⟩)]
  exact padDigits_length _ _

lemma fmtFixed_neg_data {d : Nat} {x : ℚ} (hx : x < 0) :
    ∃ rest, (fmtFixed false d x).data = '-' :: rest := by
  unfold fmtFixed
  dsimp only
  rw [if_pos hx]
  exact ⟨_, rfl⟩

/-- C8 counterexample: the claim says `format_price(42.1234567) = "$42.1234"`,
but Python `:.4f` formatting rounds to nearest, so the code renders
`"$42.1235"`. -/
theorem C8_counterexample :
    format_price (42.1234567 : ℚ) = "$42.1235" ∧
    format_price (42.1234567 : ℚ) ≠ "$42.1234" := by
  constructor
  · with_unfolding_all decide
  · with_unfolding_all decide

/-- C8 (amended): for every non-negative `x`, `format_price` renders
`x ≥ 1000` with thousands separators and 2 decimal places, `1 ≤ x < 1000`
with 4 decimal places, `x < 1` with 8 decimal places; in particular
`format_price 1234.5 = "$1,234.50"`, `format_price 0.5 = "$0.50000000"`, and
`format_price 42.1234567 = "$42.1235"` (rounded, not truncated). -/
theorem C8_format_price_spec (x : ℚ) (_hx : (0:ℚ) ≤ x) :
    fracDigits (format_price x) = (if 1000 ≤ x then 2 else if 1 ≤ x then 4 else 8) ∧
    ((',' ∈ (format_price x).data) ↔ 1000 ≤ x) ∧
    format_price (1234.5 : ℚ) = "$1,234.50" ∧
    format_price (0.5 : ℚ) = "$0.50000000" ∧
    format_price (42.1234567 : ℚ) = "$42.1235" := by
  refine ⟨?_, ?_, by with_unfolding_all decide, by with_unfolding_all decide,
    by with_unfolding_all decide⟩
  · unfold format_price
    by_cases h1 : (1000:ℚ) ≤ x
    · rw [if_pos h1, if_pos h1]
      exact fracDigits_dollar_fmtFixed true 2 x
    · rw [if_neg h1, if_neg h1]
      by_cases h2 : (1:ℚ) ≤ x
      · rw [if_pos h2, if_pos h2]
        exact fracDigits_dollar_fmtFixed false 4 x
      · rw [if_neg h2, if_neg h2]
        exact fracDigits_dollar_fmtFixed false 8 x
  · unfold format_price
    by_cases h1 : (1000:ℚ) ≤ x
    · rw [if_pos h1]
      refine iff_of_true ?_ h1
      rw [data_append]
      exact List.mem_append_right _ (comma_mem_fmtFixed_grouped (ip_ge x h1))
    · rw [if_neg h1]
      refine iff_of_false ?_ h1
      by_cases h2 : (1:ℚ) ≤ x
      · rw [if_pos h2, data_append]
        intro hc
        rcases List.mem_append.mp hc with hc | hc
        · exact absurd hc (by decide)
        · exact comma_not_mem_fmtFixed hc
      · rw [if_neg h2, data_append]
        intro hc
        rcases List.mem_append.mp hc with hc | hc
        · exact absurd hc (by decide)
        · exact comma_not_mem_fmtFixed hc

set_option maxRecDepth 8000 in
/-- Witness for the C8 theorem at the concrete input 1234.5. -/
theorem C8_witness :
    (0:ℚ) ≤ 1234.5 ∧
    (fracDigits (format_price (1234.5:ℚ)) =
        (if (1000:ℚ) ≤ 1234.5 then 2 else if (1:ℚ) ≤ 1234.5 then 4 else 8) ∧
      ((',' ∈ (format_price (1234.5:ℚ)).data) ↔ (1000:ℚ) ≤ 1234.5) ∧
      format_price (1234.5 : ℚ) = "$1,234.50" ∧
      format_price (0.5 : ℚ) = "$0.50000000" ∧
      format_price (42.1234567 : ℚ) = "$42.1235") :=
  ⟨by with_unfolding_all decide, C8_format_price_spec (1234.5:ℚ) (by with_unfolding_all decide)⟩

/-- C7 counterexample: the claim says percentages are prefixed with `+` when
the value is ≥ 0, but at value 0 both `format_percentage(0, True)` and the
message composer render `"0.00%"` with no sign. -/
theorem C7_counterexample :
    format_percentage 0 true = "0.00%" ∧ changeText 0 = "0.00%" ∧
    ("0.00%").data.head? ≠ some '+' :=
  ⟨by with_unfolding_all decide, by with_unfolding_all decide, by decide⟩

/-- C7 (amended): percentages rendered by `format_percentage` with
`include_sign` and by the message composer carry a `+` exactly when the value
is strictly positive, a literal minus when negative, and two decimal places;
the value 0 renders as the unsigned `"0.00%"`.  Both renderers agree on every
value. -/
theorem C7_percentage_sign (x : ℚ) :
    ((format_percentage x true).data.head? = some '+' ↔ 0 < x) ∧
    (x < 0 → (format_percentage x true).data.head? = some '-') ∧
    format_percentage x true = changeText x ∧
    fracDigits (format_percentage x true) = 2 ∧
    fracDigits (changeText x) = 2 := by
  rcases lt_trichotomy x 0 with hx | rfl | hx
  · have hnp : ¬ (0:ℚ) < x := by linarith
    obtain ⟨rest, hrest⟩ := fmtFixed_neg_data (d := 2) hx
    have hdata : (format_percentage x true).data = '-' :: (rest ++ ['%']) := by
      unfold format_percentage
      rw [if_pos rfl, if_neg hnp, data_append, hrest]
      rfl
    have hct : changeText x = format_percentage x true := by
      unfold changeText format_percentage
      rw [if_neg hnp, if_pos hx, if_pos rfl, if_neg hnp]
    refine ⟨?_, fun _ => by rw [hdata]; rfl, hct.symm, ?_, ?_⟩
    · rw [hdata]
      exact iff_of_false (by simp) hnp
    · have : format_percentage x true = String.mk [] ++ fmtFixed false 2 x ++ "%" := by
        unfold format_percentage
        rw [if_pos rfl, if_neg hnp]
        rfl
      rw [this]
      exact fracDigits_fmtFixed_pct [] false 2 x
    · rw [hct]
      have : format_percentage x true = String.mk [] ++ fmtFixed false 2 x ++ "%" := by
        unfold format_percentage
        rw [if_pos rfl, if_neg hnp]
        rfl
      rw [this]
      exact fracDigits_fmtFixed_pct [] false 2 x
  · refine ⟨?_, by intro h; exact absurd h (by norm_num), by with_unfolding_all decide, ?_, ?_⟩
    · rw [show format_percentage 0 true = "0.00%" from by with_unfolding_all decide]
      constructor
      · intro h
        exact absurd h (by decide)
      · intro h
        exact absurd h (by norm_num)
    · rw [show format_percentage 0 true = "0.00%" from by with_unfolding_all decide]
      decide
    · rw [show changeText 0 = "0.00%" from by with_unfolding_all decide]
      decide
  · have hdata : (format_percentage x true).data = '+' :: (fmtFixed false 2 x ++ "%").data := by
      unfold format_percentage
      rw [if_pos rfl, if_pos hx]
      rfl
    have hct : format_percentage x true = changeText x := by
      unfold changeText format_percentage
      rw [if_pos hx, if_pos rfl, if_pos hx]
    refine ⟨?_, fun h => absurd h (by linarith), hct, ?_, ?_⟩
    · rw [hdata]
      exact iff_of_true rfl hx
    · have h2 : format_percentage x true = String.mk ['+'] ++ fmtFixed false 2 x ++ "%" := by
        unfold format_percentage
        rw [if_pos rfl, if_pos hx]
      rw [h2]
      exact fracDigits_fmtFixed_pct ['+'] false 2 x
    · rw [← hct]
      have h2 : format_percentage x true = String.mk ['+'] ++ fmtFixed false 2 x ++ "%" := by
        unfold format_percentage
        rw [if_pos rfl, if_pos hx]
      rw [h2]
      exact fracDigits_fmtFixed_pct ['+'] false 2 x

/-- Witness for the C7 theorem at the concrete input -3.2. -/
theorem C7_witness :
    ((-3.2:ℚ) < 0) ∧ (format_percentage (-3.2:ℚ) true).data.head? = some '-' :=
  ⟨by with_unfolding_all decide, (C7_percentage_sign (-3.2:ℚ)).2.1 (by with_unfolding_all decide)⟩

/-! ## The validator contract -/

lemma record_pred_iff (r : RawRecord) :
    (((r.id.isSome && r.symbol.isSome && r.current_price.isSome && r.last_updated.isSome) &&
      match r.current_price with
      | some (some p) => decide (0 < p)
      | _ => false) = true) ↔
    (r.id.isSome = true ∧ r.symbol.isSome = true ∧ r.last_updated.isSome = true ∧
      ∃ p : ℚ, r.current_price = some (some p) ∧ 0 < p) := by
  rcases hcp : r.current_price with _ | cp
  · simp [hcp]
  · rcases cp with _ | p
    · simp [hcp]
    · simp only [hcp, Bool.and_eq_true, Option.isSome_some, decide_eq_true_eq,
        Option.some.injEq]
      constructor
      · rintro ⟨⟨⟨⟨h1, h2⟩, -⟩, h4⟩, h5⟩
        exact ⟨h1, h2, h4, p, rfl, h5⟩
      · rintro ⟨h1, h2, h4, q, hq, h5⟩
        cases hq
        exact ⟨⟨⟨⟨h1, h2⟩, trivial⟩, h4⟩, h5⟩

lemma validate_eq_true_iff (data : List RawRecord) :
    validate_crypto_data data = true ↔
      data ≠ [] ∧ ∀ r ∈ data,
        r.id.isSome = true ∧ r.symbol.isSome = true ∧ r.last_updated.isSome = true ∧
        ∃ p : ℚ, r.current_price = some (some p) ∧ 0 < p := by
  unfold validate_crypto_data
  rcases data with _ | ⟨r, rs⟩
  · simp
  · rw [if_neg (by simp), List.all_eq_true]
    constructor
    · intro h
      exact ⟨by simp, fun r' hr' => (record_pred_iff r').mp (h r' hr')⟩
    · intro h r' hr'
      exact (record_pred_iff r').mpr (h.2 r' hr')

/-- C3: `validate_crypto_data` returns true exactly when the batch is
non-empty and every record carries the keys `id`, `symbol`, `current_price`,
`last_updated` with a price that is present, non-null and strictly positive;
removing any required key from any record, or setting any price to a
non-positive number, or passing the empty batch, makes it false. -/
theorem C3_validate_spec (data : List RawRecord) :
    (validate_crypto_data data = true ↔
      data ≠ [] ∧ ∀ r ∈ data,
        r.id.isSome = true ∧ r.symbol.isSome = true ∧ r.last_updated.isSome = true ∧
        ∃ p : ℚ, r.current_price = some (some p) ∧ 0 < p) ∧
    validate_crypto_data [] = false ∧
    (∀ i (h : i < data.length) (f : ReqField),
      validate_crypto_data (data.set i (removeField f (data.get ⟨i, h⟩))) = false) ∧
    (∀ i (h : i < data.length) (v : ℚ), v ≤ 0 →
      validate_crypto_data (data.set i (setPrice v (data.get ⟨i, h⟩))) = false) := by
  refine ⟨validate_eq_true_iff data, rfl, ?_, ?_⟩
  · intro i h f
    cases hv : validate_crypto_data (data.set i (removeField f (data.get ⟨i, h⟩))) with
    | false => rfl
    | true =>
      exfalso
      rw [validate_eq_true_iff] at hv
      have hmem : removeField f (data.get ⟨i, h⟩) ∈
          data.set i (removeField f (data.get ⟨i, h⟩)) :=
        List.mem_set data i h _
      have hr := hv.2 _ hmem
      cases f <;> simp [removeField] at hr
  · intro i h v hv
    cases hv2 : validate_crypto_data (data.set i (setPrice v (data.get ⟨i, h⟩))) with
    | false => rfl
    | true =>
      exfalso
      rw [validate_eq_true_iff] at hv2
      have hmem : setPrice v (data.get ⟨i, h⟩) ∈ data.set i (setPrice v (data.get ⟨i, h⟩)) :=
        List.mem_set data i h _
      obtain ⟨-, -, -, p, hp, hpos⟩ := hv2.2 _ hmem
      simp [setPrice] at hp
      subst hp
      linarith

/-- Witness for the C3 theorem on a concrete one-record batch. -/
theorem C3_witness :
    validate_crypto_data
        ([rawBitcoin].set 0 (removeField ReqField.id ([rawBitcoin].get ⟨0, by decide⟩))) = false ∧
    validate_crypto_data
        ([rawBitcoin].set 0 (setPrice (-1) ([rawBitcoin].get ⟨0, by decide⟩))) = false :=
  ⟨(C3_validate_spec [rawBitcoin]).2.2.1 0 (by decide) ReqField.id,
   (C3_validate_spec [rawBitcoin]).2.2.2 0 (by decide) (-1) (by with_unfolding_all decide)⟩

/-! ## The transformer contract -/

lemma transformRecord_inv {r : RawRecord} {n : NormalizedRecord}
    (h : transformRecord r = some n) :
    r.id = some n.id ∧ r.symbol = some n.symbol ∧ r.current_price = some n.current_price ∧
    n.market_cap = r.market_cap.getD 0 ∧ n.total_volume = r.total_volume.getD 0 ∧
    n.price_change_24h = r.price_change_24h.getD 0 ∧
    n.price_change_percentage_24h = r.price_change_percentage_24h.getD 0 ∧
    ∃ lu, r.last_updated = some lu ∧ parse_last_updated lu = some n.last_updated := by
  unfold transformRecord at h
  split at h
  · rename_i i sym cp lu hid hsym hcp hlu
    split at h
    · rename_i ts hts
      cases h
      exact ⟨hid, hsym, hcp, rfl, rfl, rfl, rfl, lu, hlu, hts⟩
    · exact absurd h (by simp)
  · exact absurd h (by simp)

lemma transform_length : ∀ {data : List RawRecord} {out : List NormalizedRecord},
    transform_crypto_data data = some out → out.length = data.length := by
  intro data
  induction data with
  | nil =>
    intro out h
    simp only [transform_crypto_data, Option.some.injEq] at h
    subst h
    rfl
  | cons r rs ih =>
    intro out h
    simp only [transform_crypto_data] at h
    cases hr : transformRecord r with
    | none => rw [hr] at h; simp at h
    | some n =>
      cases hrs : transform_crypto_data rs with
      | none => rw [hr, hrs] at h; simp at h
      | some ns =>
        rw [hr, hrs] at h
        simp only [Option.some.injEq] at h
        subst h
        simp [ih hrs]

lemma transform_get : ∀ {data : List RawRecord} {out : List NormalizedRecord},
    transform_crypto_data data = some out →
    ∀ i (h1 : i < data.length) (h2 : i < out.length),
      transformRecord (data.get ⟨i, h1⟩) = some (out.get ⟨i, h2⟩) := by
  intro data
  induction data with
  | nil =>
    intro out h i h1 h2
    simp at h1
  | cons r rs ih =>
    intro out h i h1 h2
    simp only [transform_crypto_data] at h
    cases hr : transformRecord r with
    | none => rw [hr] at h; simp at h
    | some n =>
      cases hrs : transform_crypto_data rs with
      | none => rw [hr, hrs] at h; simp at h
      | some ns =>
        rw [hr, hrs] at h
        simp only [Option.some.injEq] at h
        subst h
        cases i with
        | zero => simpa using hr
        | succ j => exact ih hrs j (by simpa using h1) (by simpa using h2)

/-- C5: when `transform_crypto_data` returns a batch, it has the same length
as the input, the record at each position is derived from the input record at
the same position, and any absent optional numeric field becomes 0 in the
output record. -/
theorem C5_transform_spec (data : List RawRecord) (out : List NormalizedRecord)
    (h : transform_crypto_data data = some out) :
    out.length = data.length ∧
    (∀ i (h1 : i < data.length) (h2 : i < out.length),
      transformRecord (data.get ⟨i, h1⟩) = some (out.get ⟨i, h2⟩)) ∧
    (∀ i (h1 : i < data.length) (h2 : i < out.length),
      ((data.get ⟨i, h1⟩).market_cap = none → (out.get ⟨i, h2⟩).market_cap = 0) ∧
      ((data.get ⟨i, h1⟩).total_volume = none → (out.get ⟨i, h2⟩).total_volume = 0) ∧
      ((data.get ⟨i, h1⟩).price_change_24h = none → (out.get ⟨i, h2⟩).price_change_24h = 0) ∧
      ((data.get ⟨i, h1⟩).price_change_percentage_24h = none →
        (out.get ⟨i, h2⟩).price_change_percentage_24h = 0)) := by
  refine ⟨transform_length h, transform_get h, ?_⟩
  intro i h1 h2
  have hinv := transformRecord_inv (transform_get h i h1 h2)
  refine ⟨fun hm => ?_, fun hm => ?_, fun hm => ?_, fun hm => ?_⟩
  · rw [hinv.2.2.2.1, hm]; rfl
  · rw [hinv.2.2.2.2.1, hm]; rfl
  · rw [hinv.2.2.2.2.2.1, hm]; rfl
  · rw [hinv.2.2.2.2.2.2.1, hm]; rfl

set_option maxRecDepth 8000 in
/-- Witness for the C5 theorem on a concrete one-record batch. -/
theorem C5_witness :
    [normBitcoin].length = [rawBitcoin].length ∧
    transformRecord ([rawBitcoin].get ⟨0, by decide⟩) = some ([normBitcoin].get ⟨0, by decide⟩) :=
  ⟨(C5_transform_spec [rawBitcoin] [normBitcoin] (by with_unfolding_all decide)).1,
   (C5_transform_spec [rawBitcoin] [normBitcoin] (by with_unfolding_all decide)).2.1
     0 (by decide) (by decide)⟩

set_option maxRecDepth 8000 in
/-- C6 counterexample: the transformer copies the symbol verbatim, it does
not uppercase it: the raw symbol "btc" transforms to "btc", not "BTC". -/
theorem C6_counterexample :
    (transformRecord rawBitcoin).map NormalizedRecord.symbol = some "btc" ∧
    strUpper "btc" = "BTC" ∧ ("btc" : String) ≠ "BTC" :=
  ⟨by with_unfolding_all decide, by with_unfolding_all decide, by decide⟩

/-- C6 (amended): the symbol field of the record produced by
`transform_crypto_data` is the input symbol unchanged (case preserved);
uppercasing happens downstream, in the analyzer and the composers. -/
theorem C6_symbol_preserved (r : RawRecord) (n : NormalizedRecord)
    (h : transformRecord r = some n) : r.symbol = some n.symbol :=
  (transformRecord_inv h).2.1

set_option maxRecDepth 8000 in
/-- Witness for the C6 theorem at a concrete record. -/
theorem C6_witness : rawBitcoin.symbol = some normBitcoin.symbol :=
  C6_symbol_preserved rawBitcoin normBitcoin (by with_unfolding_all decide)

/-! ## The analyzer contract -/

lemma alertLE_trans : ∀ a b c : AlertEntry, alertLE a b → alertLE b c → alertLE a c := by
  intro a b c h1 h2
  simp only [alertLE, decide_eq_true_eq] at *
  exact le_trans h2 h1

lemma alertLE_total : ∀ a b : AlertEntry, alertLE a b || alertLE b a := by
  intro a b
  simp only [alertLE, Bool.or_eq_true, decide_eq_true_eq]
  exact le_total _ _

lemma analyze_eq_none_iff (data : List AnalyzeRecord) (t : ℚ) :
    analyze_for_alerts data t = none ↔ ∀ r ∈ data, |changePct r| < t := by
  have key : ((data.filter fun item => decide (t ≤ |changePct item|)).map mkAlertEntry).isEmpty
      = true ↔ ∀ r ∈ data, |changePct r| < t := by
    simp [not_le]
  unfold analyze_for_alerts
  dsimp only
  split
  · rename_i h
    exact iff_of_true rfl (key.mp h)
  · rename_i h
    exact iff_of_false (by simp) fun hk => h (key.mpr hk)

lemma analyze_eq_some_inv {data : List AnalyzeRecord} {t : ℚ} {rep : AlertReport}
    (h : analyze_for_alerts data t = some rep) :
    rep.has_alert = true ∧ rep.threshold = t ∧
    rep.alerts =
      ((data.filter fun item => decide (t ≤ |changePct item|)).map mkAlertEntry).mergeSort
        alertLE := by
  unfold analyze_for_alerts at h
  dsimp only at h
  split at h
  · simp at h
  · cases h
    exact ⟨rfl, rfl, rfl⟩

/-- C1: on a batch of normalized records with a positive threshold, the
analyzer returns nothing exactly when no record has an absolute change at or
above the threshold; otherwise the report carries the threshold used, and its
entries are exactly (up to the sort order) the qualifying records, each entry
carrying the record identifier, the uppercased symbol, the price and the
change percentage. -/
theorem C1_analyze_spec (ns : List NormalizedRecord) (t : ℚ) (_ht : 0 < t) :
    (analyze_for_alerts (ns.map NormalizedRecord.toAnalyzeRecord) t = none ↔
      ∀ n ∈ ns, |n.price_change_percentage_24h| < t) ∧
    (∀ rep, analyze_for_alerts (ns.map NormalizedRecord.toAnalyzeRecord) t = some rep →
      rep.threshold = t ∧ rep.has_alert = true ∧
      (rep.alerts.map fun e => (e.coin_id, e.symbol, e.price, e.change_pct)).Perm
        ((ns.filter fun n => decide (t ≤ |n.price_change_percentage_24h|)).map
          fun n => (n.id, strUpper n.symbol, n.current_price, n.price_change_percentage_24h))) := by
  constructor
  · rw [analyze_eq_none_iff]
    constructor
    · intro h n hn
      have := h (NormalizedRecord.toAnalyzeRecord n) (List.mem_map_of_mem _ hn)
      simpa [changePct, NormalizedRecord.toAnalyzeRecord] using this
    · intro h r hr
      obtain ⟨n, hn, rfl⟩ := List.mem_map.mp hr
      simpa [changePct, NormalizedRecord.toAnalyzeRecord] using h n hn
  · intro rep hrep
    obtain ⟨hh, hthr, halerts⟩ := analyze_eq_some_inv hrep
    refine ⟨hthr, hh, ?_⟩
    rw [halerts]
    have hperm :=
      (List.mergeSort_perm
        (((ns.map NormalizedRecord.toAnalyzeRecord).filter
            fun item => decide (t ≤ |changePct item|)).map mkAlertEntry) alertLE).map
        (fun e : AlertEntry => (e.coin_id, e.symbol, e.price, e.change_pct))
    refine hperm.trans ?_
    rw [List.filter_map, List.map_map, List.map_map]
    have hfun : (((fun e : AlertEntry => (e.coin_id, e.symbol, e.price, e.change_pct)) ∘
          mkAlertEntry) ∘ NormalizedRecord.toAnalyzeRecord)
        = fun n : NormalizedRecord =>
            (n.id, strUpper n.symbol, n.current_price, n.price_change_percentage_24h) :=
      funext fun n => rfl
    have hfil : ((fun item : AnalyzeRecord => decide (t ≤ |changePct item|)) ∘
          NormalizedRecord.toAnalyzeRecord)
        = fun n : NormalizedRecord => decide (t ≤ |n.price_change_percentage_24h|) :=
      funext fun n => rfl
    rw [hfun, hfil]

/-- Witness for the C1 theorem on a concrete batch with threshold 5. -/
theorem C1_witness :
    (0:ℚ) < 5 ∧
    (analyze_for_alerts ([normBitcoin].map NormalizedRecord.toAnalyzeRecord) 5 = none ↔
      ∀ n ∈ [normBitcoin], |n.price_change_percentage_24h| < 5) :=
  ⟨by decide, (C1_analyze_spec [normBitcoin] 5 (by decide)).1⟩

lemma mergeSort_filter_key (base : List AlertEntry) (k : ℚ) :
    (base.mergeSort alertLE).filter (fun e => decide (|e.change_pct| = k))
      = base.filter (fun e => decide (|e.change_pct| = k)) := by
  have hself : ((base.filter (fun e => decide (|e.change_pct| = k))).filter
      (fun e => decide (|e.change_pct| = k)))
      = base.filter (fun e => decide (|e.change_pct| = k)) :=
    List.filter_eq_self.mpr fun a ha => (List.mem_filter.mp ha).2
  have hsub : List.Sublist (base.filter (fun e => decide (|e.change_pct| = k)))
      (base.mergeSort alertLE) := by
    apply List.sublist_mergeSort alertLE_trans alertLE_total
    · apply List.pairwise_of_forall_mem_list
      intro a ha b hb
      have hpa := (List.mem_filter.mp ha).2
      have hpb := (List.mem_filter.mp hb).2
      simp only [decide_eq_true_eq] at hpa hpb
      simp [alertLE, hpa, hpb]
    · exact List.filter_sublist base
  have hsub2 : List.Sublist (base.filter (fun e => decide (|e.change_pct| = k)))
      ((base.mergeSort alertLE).filter (fun e => decide (|e.change_pct| = k))) := by
    have h := List.Sublist.filter (fun e : AlertEntry => decide (|e.change_pct| = k)) hsub
    rwa [hself] at h
  have hperm : ((base.mergeSort alertLE).filter (fun e => decide (|e.change_pct| = k))).Perm
      (base.filter (fun e => decide (|e.change_pct| = k))) :=
    (List.mergeSort_perm base alertLE).filter _
  exact (hsub2.eq_of_length hperm.length_eq.symm).symm

set_option maxRecDepth 8000 in
unseal List.merge List.mergeSort in
/-- C2: the entries of a returned report are sorted by descending absolute
change percentage, and entries with equal absolute change keep the relative
order their records had in the input batch (the per-key subsequences of the
sorted output coincide with those of the batch-ordered qualifying list); in
particular the 6.0 / -12.0 / 1.0 example with threshold 5 yields exactly the
-12.0 and 6.0 entries in that order. -/
theorem C2_analyze_sorted_stable :
    (∀ (data : List AnalyzeRecord) (t : ℚ) (rep : AlertReport),
      analyze_for_alerts data t = some rep →
      rep.alerts.Pairwise (fun a b => |b.change_pct| ≤ |a.change_pct|) ∧
      ∀ k : ℚ, rep.alerts.filter (fun e => decide (|e.change_pct| = k))
        = ((data.filter fun item => decide (t ≤ |changePct item|)).map mkAlertEntry).filter
            (fun e => decide (|e.change_pct| = k))) ∧
    analyze_for_alerts [recUp6, recDown12, recUp1] 5 =
      some { has_alert := true
             alerts := [mkAlertEntry recDown12, mkAlertEntry recUp6]
             threshold := 5 } := by
  constructor
  · intro data t rep hrep
    obtain ⟨-, -, halerts⟩ := analyze_eq_some_inv hrep
    constructor
    · rw [halerts]
      have hs := @List.sorted_mergeSort AlertEntry alertLE alertLE_trans alertLE_total
        ((data.filter fun item => decide (t ≤ |changePct item|)).map mkAlertEntry)
      exact hs.imp (by intro a b h; simpa [alertLE] using h)
    · intro k
      rw [halerts]
      exact mergeSort_filter_key _ k
  · decide

set_option maxRecDepth 8000 in
unseal List.merge List.mergeSort in
/-- Witness for the C2 theorem at the concrete three-record batch. -/
theorem C2_witness :
    ({ has_alert := true
       alerts := [mkAlertEntry recDown12, mkAlertEntry recUp6]
       threshold := 5 } : AlertReport).alerts.Pairwise
      (fun a b => |b.change_pct| ≤ |a.change_pct|) :=
  (C2_analyze_sorted_stable.1 [recUp6, recDown12, recUp1] 5
    { has_alert := true
      alerts := [mkAlertEntry recDown12, mkAlertEntry recUp6]
      threshold := 5 } (by decide)).1

lemma alerts_mem_qualifies {data : List AnalyzeRecord} {t : ℚ} {rep : AlertReport}
    (h : analyze_for_alerts data t = some rep) :
    ∀ e ∈ rep.alerts, t ≤ |e.change_pct| := by
  intro e he
  obtain ⟨-, -, halerts⟩ := analyze_eq_some_inv h
  rw [halerts, List.mem_mergeSort] at he
  obtain ⟨src, hsrc, rfl⟩ := List.mem_map.mp he
  have hq := (List.mem_filter.mp hsrc).2
  simpa [mkAlertEntry] using hq

/-- C10: `analyze_for_alerts` treats a record whose
`price_change_percentage_24h` key is absent as having change 0 (it reads the
key through `get` with default 0, so it does not fail), and for a strictly
positive threshold such a record never contributes an entry to the alert
list. -/
theorem C10_missing_pct (data : List AnalyzeRecord) (t : ℚ) (ht : 0 < t) :
    (∀ r ∈ data, r.price_change_percentage_24h = none → changePct r = 0) ∧
    (∀ rep, analyze_for_alerts data t = some rep →
      ∀ r ∈ data, r.price_change_percentage_24h = none → mkAlertEntry r ∉ rep.alerts) := by
  refine ⟨fun r _ hr => by simp [changePct, hr], ?_⟩
  intro rep hrep r hr hnone hmem
  have hq := alerts_mem_qualifies hrep _ hmem
  have hz : (mkAlertEntry r).change_pct = 0 := by simp [mkAlertEntry, changePct, hnone]
  rw [hz] at hq
  simp only [abs_zero] at hq
  linarith

set_option maxRecDepth 8000 in
unseal List.merge List.mergeSort in
/-- Witness for the C10 theorem: in a batch holding one qualifying record and
one record without the change key, the report that comes back does not hold
an entry for the latter. -/
theorem C10_witness :
    mkAlertEntry recNoPct ∉
      ({ has_alert := true
         alerts := [mkAlertEntry recUp6]
         threshold := 5 } : AlertReport).alerts :=
  (C10_missing_pct [recUp6, recNoPct] 5 (by decide)).2
    { has_alert := true, alerts := [mkAlertEntry recUp6], threshold := 5 }
    (by decide) recNoPct (by decide) rfl

/-! ## The no-mutation contract -/

lemma analyzeLoopS_heap : ∀ (batch : List Nat) (heap : List HeapObj) (t : ℚ),
    ∃ ext, (analyzeLoopS heap batch t).2 = heap ++ ext ∧
      ∀ o ∈ ext, ∃ e, o = HeapObj.entryObj e := by
  intro batch
  induction batch with
  | nil =>
    intro heap t
    exact ⟨[], by simp [analyzeLoopS], by simp⟩
  | cons a rest ih =>
    intro heap t
    simp only [analyzeLoopS]
    cases hr : readRec heap a with
    | none => exact ⟨[], by simp, by simp⟩
    | some item =>
      dsimp only
      split
      · obtain ⟨ext, hext, hall⟩ := ih (heap ++ [HeapObj.entryObj (mkAlertEntry item)]) t
        refine ⟨HeapObj.entryObj (mkAlertEntry item) :: ext, ?_, ?_⟩
        · rw [hext]
          simp
        · intro o ho
          rcases List.mem_cons.mp ho with rfl | ho
          · exact ⟨_, rfl⟩
          · exact hall o ho
      · exact ih heap t

lemma heap_ext_readRec {heap ext : List HeapObj}
    (hall : ∀ o ∈ ext, ∃ e, o = HeapObj.entryObj e) (a : Nat) :
    readRec (heap ++ ext) a = readRec heap a := by
  unfold readRec
  by_cases h : a < heap.length
  · rw [List.get?_append h]
  · have hnone : heap.get? a = none := List.get?_eq_none.mpr (by omega)
    rw [hnone, List.get?_append_right (by omega)]
    cases ho : ext.get? (a - heap.length) with
    | none => rfl
    | some o =>
      obtain ⟨e, rfl⟩ := hall o (List.get?_mem ho)
      rfl

/-- C9: the store-passing embedding of `analyze_for_alerts` leaves every
pre-existing store object unchanged (it only appends fresh alert-entry
objects), so after the call the batch still refers to the same records with
the same field values in the same order. -/
theorem C9_analyze_no_mutation (heap : List HeapObj) (batch : List Nat) (t : ℚ) :
    (analyze_for_alertsS heap batch t).2.take heap.length = heap ∧
    batch.map (readRec (analyze_for_alertsS heap batch t).2) = batch.map (readRec heap) := by
  obtain ⟨ext, hext, hall⟩ := analyzeLoopS_heap batch heap t
  have h2 : (analyze_for_alertsS heap batch t).2 = (analyzeLoopS heap batch t).2 := by
    unfold analyze_for_alertsS
    rcases hres : analyzeLoopS heap batch t with ⟨res, heap'⟩
    cases res with
    | none => rfl
    | some alerts =>
      dsimp only
      split <;> rfl
  rw [h2, hext]
  constructor
  · exact List.take_left heap ext
  · exact congrArg (fun f => batch.map f) (funext fun a => heap_ext_readRec hall a)

/-! ## The timestamp-parse contract -/

lemma replaceAllZ_append (a b : List Char) :
    replaceAllZ (a ++ b) = replaceAllZ a ++ replaceAllZ b := by
  induction a with
  | nil => rfl
  | cons c cs ih => simp [replaceAllZ, ih]

lemma replaceAllZ_of_not_mem {l : List Char} (h : 'Z' ∉ l) : replaceAllZ l = l := by
  induction l with
  | nil => rfl
  | cons c cs ih =>
    have hc : c ≠ 'Z' := fun hc => h (by simp [hc])
    simp only [replaceAllZ, if_neg hc]
    rw [ih fun hm => h (by simp [hm])]
    rfl

lemma fromiso_replaceZ_no_midZ {l : List Char} (hmid : 'Z' ∉ l.dropLast) :
    fromisoformat (replaceAllZ l) = fromisoformat (replaceTrailingZ l) := by
  by_cases hlast : l.getLast? = some 'Z'
  · have hlne : l ≠ [] := by
      intro hnil
      rw [hnil] at hlast
      simp at hlast
    have hgl : l.getLast hlne = 'Z' := by
      rw [List.getLast?_eq_getLast l hlne] at hlast
      exact Option.some.inj hlast
    have h1 : replaceAllZ l = l.dropLast ++ replZ := by
      conv_lhs => rw [← List.dropLast_append_getLast hlne]
      rw [replaceAllZ_append, replaceAllZ_of_not_mem hmid, hgl]
      congr 1
    rw [h1]
    unfold replaceTrailingZ
    rw [if_pos hlast]
  · have hno : 'Z' ∉ l := by
      intro hz
      have hlne : l ≠ [] := by
        rintro rfl
        simp at hz
      rw [← List.dropLast_append_getLast hlne] at hz
      rcases List.mem_append.mp hz with hm | hm
      · exact hmid hm
      · simp only [List.mem_singleton] at hm
        apply hlast
        rw [List.getLast?_eq_getLast l hlne, ← hm]
    rw [replaceAllZ_of_not_mem hno]
    unfold replaceTrailingZ
    rw [if_neg hlast]

set_option maxRecDepth 8000 in
/-- C4 counterexample: the claim says the parse fails exactly when the text
after substituting one trailing `Z` is not valid ISO 8601, but the code
substitutes every `Z`.  On `last_updated = "2024-12-01T00:00:00Z:00"` the
code computes `fromisoformat("2024-12-01T00:00:00+00:00:00")`, a valid
ISO 8601 text with the offset `+00:00:00`, and parses it successfully, while
the text after the trailing-Z substitution, `"2024-12-01T00:00:00Z:00"`
itself, is not valid ISO 8601, so the claim mandates a parse error there. -/
theorem C4_counterexample :
    parse_last_updated "2024-12-01T00:00:00Z:00" =
      some ⟨2024, 12, 1, 0, 0, 0, 0, some 0⟩ ∧
    fromisoformat (replaceTrailingZ ("2024-12-01T00:00:00Z:00").data) = none :=
  ⟨by with_unfolding_all decide, by with_unfolding_all decide⟩

set_option maxRecDepth 8000 in
/-- C4 (amended): the code substitutes every occurrence of `Z`, not only a
trailing one.  For every string in which `Z` occurs at most as the final
character the two substitutions coincide, so there the parse behaves exactly
as the claim describes: a trailing literal `Z` is treated as the UTC offset
`+00:00`, then the text is parsed as ISO 8601, failing exactly when the
substituted text is not valid ISO 8601; in particular the record with
`last_updated = "2024-12-01T00:00:00Z"` transforms to the timestamp
2024-12-01 00:00:00 UTC. -/
theorem C4_timestamp_parse :
    (∀ s : String, 'Z' ∉ s.data.dropLast →
      parse_last_updated s = fromisoformat (replaceTrailingZ s.data)) ∧
    transformRecord rawBitcoin = some normBitcoin :=
  ⟨fun _ hs => fromiso_replaceZ_no_midZ hs, by with_unfolding_all decide⟩

set_option maxRecDepth 8000 in
/-- Witness for the C4 theorem at the concrete pipeline timestamp. -/
theorem C4_witness :
    parse_last_updated "2024-12-01T00:00:00Z" =
      fromisoformat (replaceTrailingZ ("2024-12-01T00:00:00Z").data) :=
  C4_timestamp_parse.1 "2024-12-01T00:00:00Z" (by decide)
